import Mathlib

/-!
Verification of the core of `remove_red_categories.py` from the
MrIbrahem/WantedCategories repository.

The embedding models page text as `List Char`.  The Python code builds, for a
category name, the four patterns

  r'\[\[Category:{escaped}\s*(?:\|[^\]]*)?\]\]'     (check; remove adds \n?)
  r'\[\[category:{escaped}\s*(?:\|[^\]]*)?\]\]'
  r'\[\[تصنيف:{escaped}\s*(?:\|[^\]]*)?\]\]'
  r'\[\[CATEGORY:{escaped}\s*(?:\|[^\]]*)?\]\]'

and runs `re.search` (for `check_category_in_text`) respectively `re.sub`
(for `remove_category_from_text`) with `re.IGNORECASE`.  Since the name is
passed through `re.escape`, the name part of the pattern is a literal string
and the whole pattern is matched case-insensitively.  Case-insensitivity is
modelled for ASCII letters (the cased characters appearing in the patterns
and in the claims' inputs); `\s` is modelled by the six ASCII whitespace
characters which Python's `\s` always contains.

At a given start position the pattern is deterministic: `\s*` consumes the
maximal whitespace run (shrinking it can never help, because the continuation
requires `|` or `]`, neither of which is whitespace); the optional sort-key
group must be taken exactly when the next character is `|`; and `[^\]]*`
consumes the maximal run of non-`]` characters (the continuation requires
`]`).  `re.sub` replaces the non-overlapping matches found scanning the input
left to right, resuming after the end of each match.
-/

/-- ASCII lower-casing; Python's `re.IGNORECASE` restricted to ASCII letters. -/
def lowerAscii (c : Char) : Char :=
  if 65 ≤ c.toNat ∧ c.toNat ≤ 90 then Char.ofNat (c.toNat + 32) else c

/-- The ASCII characters matched by Python's `\s`. -/
def isSpaceChar (c : Char) : Bool :=
  c = ' ' || c = '\t' || c = '\n' || c = '\r' || c = '\x0b' || c = '\x0c'

/-- Match a literal string case-insensitively at the head of `cs`, returning
the remainder.  Models a `re.escape`d literal under `re.IGNORECASE`. -/
def dropLiteralCI (lit : List Char) (cs : List Char) : Option (List Char) :=
  match lit, cs with
  | [], cs => some cs
  | l :: ls, c :: cs => if lowerAscii c = lowerAscii l then dropLiteralCI ls cs else none
  | _ :: _, [] => none

/-- Match `\s*(?:\|[^\]]*)?\]\]` at the head of `cs`, returning the remainder. -/
def matchTail (cs : List Char) : Option (List Char) :=
  match cs.dropWhile isSpaceChar with
  | '|' :: cs2 =>
    (match cs2.dropWhile (fun c => !(c = ']')) with
     | ']' :: ']' :: rest => some rest
     | _ => none)
  | ']' :: ']' :: rest => some rest
  | _ => none

/-- Match `\[\[KW{escaped name}\s*(?:\|[^\]]*)?\]\]` at the head of `cs` for
the namespace keyword `kw` (keyword text includes the colon), returning the
remainder.  This is the pattern used by `check_category_in_text`. -/
def tryMatchCore (kw name : List Char) (cs : List Char) : Option (List Char) :=
  match cs with
  | '[' :: '[' :: cs1 =>
    match dropLiteralCI kw cs1 with
    | some cs2 =>
      match dropLiteralCI name cs2 with
      | some cs3 => matchTail cs3
      | none => none
    | none => none
  | _ => none

/-- Drop a single leading newline, if present: the trailing `\n?` of the
removal patterns. -/
def dropNL : List Char → List Char
  | '\n' :: rest => rest
  | rest => rest

/-- Match the removal pattern (the check pattern followed by `\n?`) at the
head of `cs`. -/
def tryMatchNL (kw name : List Char) (cs : List Char) : Option (List Char) :=
  match tryMatchCore kw name cs with
  | some rest => some (dropNL rest)
  | none => none

/-- `re.search` for one pattern: does the pattern match at some position? -/
def containsMatch (kw name : List Char) : List Char → Bool
  | [] => false
  | c :: cs => (tryMatchCore kw name (c :: cs)).isSome || containsMatch kw name cs

/-- One `re.sub(pattern, '', text)` pass, with explicit fuel (the fuel is
only there to make the definition structurally recursive; `subPass` always
supplies enough).  Scans left to right; on a match, deletes it and resumes
after its end; otherwise keeps the character and moves on. -/
def subPassAux (kw name : List Char) : Nat → List Char → List Char
  | _, [] => []
  | 0, cs => cs
  | fuel + 1, c :: cs =>
    match tryMatchNL kw name (c :: cs) with
    | some rest => subPassAux kw name fuel rest
    | none => c :: subPassAux kw name fuel cs

/-- One `re.sub(pattern, '', text)` pass for the pattern with keyword `kw`. -/
def subPass (kw name cs : List Char) : List Char :=
  subPassAux kw name cs.length cs

/-- `RedCategoryRemover.check_category_in_text`: the four `re.search` calls,
in source order.  (Under `IGNORECASE` the three English patterns coincide.) -/
def check_category_in_text (text name : List Char) : Bool :=
  containsMatch ("Category:".toList) name text ||
  containsMatch ("category:".toList) name text ||
  containsMatch ("تصنيف:".toList) name text ||
  containsMatch ("CATEGORY:".toList) name text

/-- `RedCategoryRemover.remove_category_from_text`: the four sequential
`re.sub` passes, in source order. -/
def remove_category_from_text (text name : List Char) : List Char :=
  subPass ("CATEGORY:".toList) name
    (subPass ("تصنيف:".toList) name
      (subPass ("category:".toList) name
        (subPass ("Category:".toList) name text)))

/-!
The `process_category` loop.  A member page is modelled by the facets the
loop observes: its integer wiki namespace (`page.namespace`), its title
(`page.name`), the outcome of `page.text()` (`none` models the call raising
an exception), and whether `page.save(...)` succeeds (`false` models the
call raising an exception).
-/

/-- One category member, as observed by `process_category`. -/
structure Page where
  ns : Int
  name : List Char
  fetchResult : Option (List Char)
  saveOk : Bool
deriving DecidableEq

/-- Result of `process_category` together with observers of the loop's
behaviour: `edits` and `skipped` are the returned pair `(edits_made,
skipped)`; `fetched` records (in order) the pages on which `page.text()` was
invoked; `saved` the pages on which `page.save(...)` was invoked; `warned`
the pages that hit the "Text unchanged after removal attempt" warning; and
`maxStreak` the largest value attained by `not_found_count`. -/
structure ProcResult where
  edits : Nat
  skipped : Bool
  fetched : List Page
  saved : List Page
  warned : List Page
  maxStreak : Nat
deriving DecidableEq

/-- The `for i, page in enumerate(members, 1)` loop of
`RedCategoryRemover.process_category`, with accumulators `edits`
(`edits_made`) and `notFound` (`not_found_count`).  Branches, in source
order: skip non-main-namespace pages untouched; a raising `page.text()` is
caught and the page skipped; if the category is found and removal changes
the text, save (unless `dry_run`; a raising save is caught, skipping the
increment and reset), increment `edits_made` and reset the counter; if
found but unchanged, warn and leave both counters alone; otherwise
increment `not_found_count` and return `(edits_made, True)` once it reaches
`max_check`. -/
def processLoop (maxCheck : Nat) (dryRun : Bool) (cat : List Char) :
    List Page → Nat → Nat → ProcResult
  | [], edits, notFound => ⟨edits, false, [], [], [], notFound⟩
  | p :: rest, edits, notFound =>
    if p.ns ≠ 0 then
      processLoop maxCheck dryRun cat rest edits notFound
    else
      match p.fetchResult with
      | none =>
        let r := processLoop maxCheck dryRun cat rest edits notFound
        ⟨r.edits, r.skipped, p :: r.fetched, r.saved, r.warned, max notFound r.maxStreak⟩
      | some text =>
        if check_category_in_text text cat then
          if remove_category_from_text text cat ≠ text then
            if dryRun then
              let r := processLoop maxCheck dryRun cat rest (edits + 1) 0
              ⟨r.edits, r.skipped, p :: r.fetched, r.saved, r.warned, max notFound r.maxStreak⟩
            else if p.saveOk then
              let r := processLoop maxCheck dryRun cat rest (edits + 1) 0
              ⟨r.edits, r.skipped, p :: r.fetched, p :: r.saved, r.warned, max notFound r.maxStreak⟩
            else
              let r := processLoop maxCheck dryRun cat rest edits notFound
              ⟨r.edits, r.skipped, p :: r.fetched, p :: r.saved, r.warned, max notFound r.maxStreak⟩
          else
            let r := processLoop maxCheck dryRun cat rest edits notFound
            ⟨r.edits, r.skipped, p :: r.fetched, r.saved, p :: r.warned, max notFound r.maxStreak⟩
        else
          if notFound + 1 ≥ maxCheck then
            ⟨edits, true, [p], [], [], notFound + 1⟩
          else
            let r := processLoop maxCheck dryRun cat rest edits (notFound + 1)
            ⟨r.edits, r.skipped, p :: r.fetched, r.saved, r.warned, max notFound r.maxStreak⟩

/-- `RedCategoryRemover.process_category` on an already-listed member
sequence.  (The source's early return for an empty member list coincides
with running the loop on the empty list: both give `(0, False)` with no page
touched.) -/
def process_category (maxCheck : Nat) (dryRun : Bool) (cat : List Char)
    (members : List Page) : ProcResult :=
  processLoop maxCheck dryRun cat members 0 0

/-- An eligible member on which the category markup is not found: main
namespace, `page.text()` succeeds, `check_category_in_text` is false. -/
def eligibleMiss (cat : List Char) (p : Page) : Bool :=
  decide (p.ns = 0) &&
    (match p.fetchResult with
     | some t => !(check_category_in_text t cat)
     | none => false)

/-- An eligible member on which the markup is found and removable: main
namespace, `page.text()` succeeds, `check_category_in_text` is true, removal
changes the text, and the save (when not in dry-run mode) succeeds. -/
def eligibleHit (dryRun : Bool) (cat : List Char) (p : Page) : Bool :=
  decide (p.ns = 0) &&
    (match p.fetchResult with
     | some t =>
       check_category_in_text t cat &&
       decide (remove_category_from_text t cat ≠ t) &&
       (dryRun || p.saveOk)
     | none => false)

/-!
The deleted-segments decomposition of a removal pass: `Dels kw name t t'`
says that `t'` is obtained from `t` by deleting whole segments, each of which
is a match of the removal pattern for keyword `kw`.
-/

/-- `t'` arises from `t` by deleting whole segments that match the removal
pattern (the bracketed construct with optional sort key and one trailing
newline) for keyword `kw` and the given category name. -/
inductive Dels (kw name : List Char) : List Char → List Char → Prop where
  | nil : Dels kw name [] []
  | keep {t t' : List Char} (c : Char) : Dels kw name t t' → Dels kw name (c :: t) (c :: t')
  | del {cs rest t' : List Char} : tryMatchNL kw name cs = some rest →
      Dels kw name rest t' → Dels kw name cs t'

/-! Concrete sample data used by the witnesses and counterexamples. -/

/-- Sample category name. -/
def catA : List Char := "A".toList

/-- A main-namespace page whose text does not mention the category. -/
def pMiss : Page := ⟨0, "M".toList, some ("xyz".toList), true⟩

/-- A main-namespace page carrying the category markup; save succeeds. -/
def pHit : Page := ⟨0, "H".toList, some ("[[Category:A]]".toList), true⟩

/-- A page outside the main namespace (its text even carries the markup). -/
def pTalk : Page := ⟨1, "T".toList, some ("[[Category:A]]".toList), true⟩

/-- A main-namespace page whose text fetch raises. -/
def pFetchFail : Page := ⟨0, "E".toList, none, true⟩

/-- A main-namespace page carrying the markup whose save raises. -/
def pSaveFail : Page := ⟨0, "S".toList, some ("[[Category:A]]".toList), false⟩

/-- Four nested occurrences of the bracketed construct for category `A`:
deleting the innermost match of each removal pass exposes the next one. -/
def nested4 : List Char :=
  "[[Cat[[Cat[[Cat[[Category:A]]egory:A]]egory:A]]egory:A]]".toList

/-! Helper lemmas about the matcher. -/

theorem dropLiteralCI_length_le {lit cs rest : List Char}
    (h : dropLiteralCI lit cs = some rest) : rest.length ≤ cs.length := by
  induction lit generalizing cs with
  | nil => simp [dropLiteralCI] at h; simp [h]
  | cons l ls ih =>
    cases cs with
    | nil => simp [dropLiteralCI] at h
    | cons c cs =>
      simp only [dropLiteralCI] at h
      split at h
      · exact Nat.le_succ_of_le (ih h)
      · exact absurd h (by simp)

theorem matchTail_length_le {cs rest : List Char}
    (h : matchTail cs = some rest) : rest.length ≤ cs.length := by
  have hdw : (cs.dropWhile isSpaceChar).length ≤ cs.length :=
    (List.dropWhile_suffix isSpaceChar).length_le
  simp only [matchTail] at h
  split at h
  case _ cs2 heq =>
    have hdw2 : (cs2.dropWhile (fun c => !(c = ']'))).length ≤ cs2.length :=
      (List.dropWhile_suffix _).length_le
    split at h
    case _ rest' heq2 =>
      have h1 : rest'.length + 2 = (cs2.dropWhile (fun c => !(c = ']'))).length := by
        rw [heq2]; simp
      have h2 : cs2.length + 1 = (cs.dropWhile isSpaceChar).length := by
        rw [heq]; simp
      cases h
      omega
    case _ => exact absurd h (by simp)
  case _ rest' heq =>
    have h1 : rest'.length + 2 = (cs.dropWhile isSpaceChar).length := by
      rw [heq]; simp
    cases h
    omega
  case _ => exact absurd h (by simp)

theorem tryMatchCore_length_lt {kw name cs rest : List Char}
    (h : tryMatchCore kw name cs = some rest) : rest.length < cs.length := by
  simp only [tryMatchCore] at h
  split at h
  case _ cs1 =>
    split at h
    case _ cs2 hkw =>
      split at h
      case _ cs3 hname =>
        have h1 := dropLiteralCI_length_le hkw
        have h2 := dropLiteralCI_length_le hname
        have h3 := matchTail_length_le h
        simp only [List.length_cons]
        omega
      case _ => exact absurd h (by simp)
    case _ => exact absurd h (by simp)
  case _ => exact absurd h (by simp)

theorem dropNL_length_le (l : List Char) : (dropNL l).length ≤ l.length := by
  unfold dropNL
  split <;> simp

theorem tryMatchNL_length_lt {kw name cs rest : List Char}
    (h : tryMatchNL kw name cs = some rest) : rest.length < cs.length := by
  simp only [tryMatchNL] at h
  split at h
  case _ rest' heq =>
    cases h
    exact Nat.lt_of_le_of_lt (dropNL_length_le rest') (tryMatchCore_length_lt heq)
  case _ => exact absurd h (by simp)

theorem subPassAux_congr (kw name : List Char) :
    ∀ f₁ f₂ cs, cs.length ≤ f₁ → cs.length ≤ f₂ →
      subPassAux kw name f₁ cs = subPassAux kw name f₂ cs := by
  intro f₁
  induction f₁ with
  | zero =>
    intro f₂ cs h1 _
    have : cs = [] := List.eq_nil_of_length_eq_zero (Nat.le_zero.mp h1)
    subst this
    simp [subPassAux]
  | succ g₁ ih =>
    intro f₂ cs h1 h2
    cases cs with
    | nil => simp [subPassAux]
    | cons c cs =>
      cases f₂ with
      | zero => simp at h2
      | succ g₂ =>
        simp only [subPassAux]
        cases hm : tryMatchNL kw name (c :: cs) with
        | some rest =>
          have hlt := tryMatchNL_length_lt hm
          simp only [List.length_cons] at h1 h2 hlt
          exact ih g₂ rest (by omega) (by omega)
        | none =>
          simp only [List.length_cons] at h1 h2
          rw [ih g₂ cs (by omega) (by omega)]

theorem subPassAux_id_of_not_contains (kw name : List Char) :
    ∀ f cs, cs.length ≤ f → containsMatch kw name cs = false →
      subPassAux kw name f cs = cs := by
  intro f
  induction f with
  | zero =>
    intro cs h1 _
    have : cs = [] := List.eq_nil_of_length_eq_zero (Nat.le_zero.mp h1)
    subst this
    simp [subPassAux]
  | succ g ih =>
    intro cs h1 h2
    cases cs with
    | nil => simp [subPassAux]
    | cons c cs =>
      simp only [containsMatch, Bool.or_eq_false_iff] at h2
      obtain ⟨hcore, hrest⟩ := h2
      have hnl : tryMatchNL kw name (c :: cs) = none := by
        simp only [tryMatchNL]
        cases hm : tryMatchCore kw name (c :: cs) with
        | some rest => rw [hm] at hcore; simp at hcore
        | none => rfl
      simp only [subPassAux, hnl]
      simp only [List.length_cons] at h1
      rw [ih cs (by omega) hrest]

theorem subPass_id_of_not_contains {kw name cs : List Char}
    (h : containsMatch kw name cs = false) : subPass kw name cs = cs :=
  subPassAux_id_of_not_contains kw name cs.length cs (Nat.le_refl _) h

/-- Shared helper: if the category is not detected in the text, every removal
pass is the identity, hence removal returns the text unchanged. -/
theorem remove_id_of_check_false {text name : List Char}
    (h : check_category_in_text text name = false) :
    remove_category_from_text text name = text := by
  simp only [check_category_in_text, Bool.or_eq_false_iff] at h
  obtain ⟨⟨⟨h1, h2⟩, h3⟩, h4⟩ := h
  simp only [remove_category_from_text]
  rw [subPass_id_of_not_contains h1, subPass_id_of_not_contains h2,
    subPass_id_of_not_contains h3, subPass_id_of_not_contains h4]

theorem dropLiteralCI_lower_eq {lit cs rest : List Char}
    (h : dropLiteralCI lit cs = some rest) :
    cs.map lowerAscii = lit.map lowerAscii ++ rest.map lowerAscii := by
  induction lit generalizing cs with
  | nil => simp [dropLiteralCI] at h; simp [h]
  | cons l ls ih =>
    cases cs with
    | nil => simp [dropLiteralCI] at h
    | cons c cs =>
      simp only [dropLiteralCI] at h
      split at h
      case _ hl => simp [ih h, hl]
      case _ => exact absurd h (by simp)

theorem tryMatchCore_split {kw name cs rest : List Char}
    (h : tryMatchCore kw name cs = some rest) :
    ∃ cs1 cs2 cs3, cs = '[' :: '[' :: cs1 ∧
      dropLiteralCI kw cs1 = some cs2 ∧ dropLiteralCI name cs2 = some cs3 := by
  simp only [tryMatchCore] at h
  split at h
  case _ cs1 =>
    split at h
    case _ cs2 hkw =>
      split at h
      case _ cs3 hname => exact ⟨cs1, cs2, cs3, rfl, hkw, hname⟩
      case _ => exact absurd h (by simp)
    case _ => exact absurd h (by simp)
  case _ => exact absurd h (by simp)

/-- If a single pattern matches somewhere in the text, the (ASCII
case-folded) category name occurs as a contiguous segment of the (ASCII
case-folded) text. -/
theorem containsMatch_sound {kw name : List Char} :
    ∀ {cs : List Char}, containsMatch kw name cs = true →
      ∃ s t, cs.map lowerAscii = s ++ name.map lowerAscii ++ t := by
  intro cs h
  induction cs with
  | nil => simp [containsMatch] at h
  | cons c cs ih =>
    simp only [containsMatch, Bool.or_eq_true] at h
    cases h with
    | inl hcore =>
      obtain ⟨rest, hm⟩ := Option.isSome_iff_exists.mp hcore
      obtain ⟨cs1, cs2, cs3, hcs, hkw, hname⟩ := tryMatchCore_split hm
      refine ⟨'[' :: '[' :: kw.map lowerAscii, cs3.map lowerAscii, ?_⟩
      have e1 := dropLiteralCI_lower_eq hkw
      have e2 := dropLiteralCI_lower_eq hname
      have hbr : lowerAscii '[' = '[' := by decide
      rw [hcs]
      simp [e1, e2, hbr]
    | inr hrest =>
      obtain ⟨s, t, hst⟩ := ih hrest
      exact ⟨lowerAscii c :: s, t, by simp [hst]⟩

theorem dels_subPassAux (kw name : List Char) :
    ∀ f cs, cs.length ≤ f → Dels kw name cs (subPassAux kw name f cs) := by
  intro f
  induction f with
  | zero =>
    intro cs h1
    have : cs = [] := List.eq_nil_of_length_eq_zero (Nat.le_zero.mp h1)
    subst this
    exact Dels.nil
  | succ g ih =>
    intro cs h1
    cases cs with
    | nil => exact Dels.nil
    | cons c cs =>
      simp only [subPassAux]
      cases hm : tryMatchNL kw name (c :: cs) with
      | some rest =>
        have hlt := tryMatchNL_length_lt hm
        simp only [List.length_cons] at h1 hlt
        exact Dels.del hm (ih rest (by omega))
      | none =>
        simp only [List.length_cons] at h1
        exact Dels.keep c (ih cs (by omega))

theorem dels_subPass (kw name cs : List Char) : Dels kw name cs (subPass kw name cs) :=
  dels_subPassAux kw name cs.length cs (Nat.le_refl _)

/-! Step lemmas for the `process_category` loop, one per branch. -/

theorem processLoop_cons_ns {mc : Nat} {dr : Bool} {cat : List Char} {p : Page}
    {rest : List Page} {e n : Nat} (h : p.ns ≠ 0) :
    processLoop mc dr cat (p :: rest) e n = processLoop mc dr cat rest e n := by
  simp [processLoop, h]

theorem processLoop_cons_fetch_none {mc : Nat} {dr : Bool} {cat : List Char} {p : Page}
    {rest : List Page} {e n : Nat} (h0 : p.ns = 0) (hf : p.fetchResult = none) :
    processLoop mc dr cat (p :: rest) e n =
      ⟨(processLoop mc dr cat rest e n).edits, (processLoop mc dr cat rest e n).skipped,
       p :: (processLoop mc dr cat rest e n).fetched, (processLoop mc dr cat rest e n).saved,
       (processLoop mc dr cat rest e n).warned,
       max n (processLoop mc dr cat rest e n).maxStreak⟩ := by
  simp [processLoop, h0, hf]

theorem processLoop_cons_hit_dry {mc : Nat} {cat : List Char} {p : Page}
    {rest : List Page} {e n : Nat} {t : List Char}
    (h0 : p.ns = 0) (hf : p.fetchResult = some t)
    (hc : check_category_in_text t cat = true)
    (hne : remove_category_from_text t cat ≠ t) :
    processLoop mc true cat (p :: rest) e n =
      ⟨(processLoop mc true cat rest (e + 1) 0).edits,
       (processLoop mc true cat rest (e + 1) 0).skipped,
       p :: (processLoop mc true cat rest (e + 1) 0).fetched,
       (processLoop mc true cat rest (e + 1) 0).saved,
       (processLoop mc true cat rest (e + 1) 0).warned,
       max n (processLoop mc true cat rest (e + 1) 0).maxStreak⟩ := by
  simp [processLoop, h0, hf, hc, hne]

theorem processLoop_cons_hit_live {mc : Nat} {cat : List Char} {p : Page}
    {rest : List Page} {e n : Nat} {t : List Char}
    (h0 : p.ns = 0) (hf : p.fetchResult = some t)
    (hc : check_category_in_text t cat = true)
    (hne : remove_category_from_text t cat ≠ t) (hs : p.saveOk = true) :
    processLoop mc false cat (p :: rest) e n =
      ⟨(processLoop mc false cat rest (e + 1) 0).edits,
       (processLoop mc false cat rest (e + 1) 0).skipped,
       p :: (processLoop mc false cat rest (e + 1) 0).fetched,
       p :: (processLoop mc false cat rest (e + 1) 0).saved,
       (processLoop mc false cat rest (e + 1) 0).warned,
       max n (processLoop mc false cat rest (e + 1) 0).maxStreak⟩ := by
  simp [processLoop, h0, hf, hc, hne, hs]

theorem processLoop_cons_save_fail {mc : Nat} {cat : List Char} {p : Page}
    {rest : List Page} {e n : Nat} {t : List Char}
    (h0 : p.ns = 0) (hf : p.fetchResult = some t)
    (hc : check_category_in_text t cat = true)
    (hne : remove_category_from_text t cat ≠ t) (hs : p.saveOk = false) :
    processLoop mc false cat (p :: rest) e n =
      ⟨(processLoop mc false cat rest e n).edits, (processLoop mc false cat rest e n).skipped,
       p :: (processLoop mc false cat rest e n).fetched,
       p :: (processLoop mc false cat rest e n).saved,
       (processLoop mc false cat rest e n).warned,
       max n (processLoop mc false cat rest e n).maxStreak⟩ := by
  simp [processLoop, h0, hf, hc, hne, hs]

theorem processLoop_cons_warn {mc : Nat} {dr : Bool} {cat : List Char} {p : Page}
    {rest : List Page} {e n : Nat} {t : List Char}
    (h0 : p.ns = 0) (hf : p.fetchResult = some t)
    (hc : check_category_in_text t cat = true)
    (heq : remove_category_from_text t cat = t) :
    processLoop mc dr cat (p :: rest) e n =
      ⟨(processLoop mc dr cat rest e n).edits, (processLoop mc dr cat rest e n).skipped,
       p :: (processLoop mc dr cat rest e n).fetched, (processLoop mc dr cat rest e n).saved,
       p :: (processLoop mc dr cat rest e n).warned,
       max n (processLoop mc dr cat rest e n).maxStreak⟩ := by
  simp [processLoop, h0, hf, hc, heq]

theorem processLoop_cons_miss {mc : Nat} {dr : Bool} {cat : List Char} {p : Page}
    {rest : List Page} {e n : Nat} {t : List Char}
    (h0 : p.ns = 0) (hf : p.fetchResult = some t)
    (hc : check_category_in_text t cat = false) (hlt : n + 1 < mc) :
    processLoop mc dr cat (p :: rest) e n =
      ⟨(processLoop mc dr cat rest e (n + 1)).edits,
       (processLoop mc dr cat rest e (n + 1)).skipped,
       p :: (processLoop mc dr cat rest e (n + 1)).fetched,
       (processLoop mc dr cat rest e (n + 1)).saved,
       (processLoop mc dr cat rest e (n + 1)).warned,
       max n (processLoop mc dr cat rest e (n + 1)).maxStreak⟩ := by
  have hth : ¬ (n + 1 ≥ mc) := by omega
  simp [processLoop, h0, hf, hc, hth]

theorem processLoop_cons_threshold {mc : Nat} {dr : Bool} {cat : List Char} {p : Page}
    {rest : List Page} {e n : Nat} {t : List Char}
    (h0 : p.ns = 0) (hf : p.fetchResult = some t)
    (hc : check_category_in_text t cat = false) (hge : n + 1 ≥ mc) :
    processLoop mc dr cat (p :: rest) e n = ⟨e, true, [p], [], [], n + 1⟩ := by
  simp [processLoop, h0, hf, hc, hge]

theorem eligibleMiss_spec {cat : List Char} {p : Page} (h : eligibleMiss cat p = true) :
    p.ns = 0 ∧ ∃ t, p.fetchResult = some t ∧ check_category_in_text t cat = false := by
  simp only [eligibleMiss, Bool.and_eq_true, decide_eq_true_eq] at h
  obtain ⟨h1, h2⟩ := h
  refine ⟨h1, ?_⟩
  cases hf : p.fetchResult with
  | none => rw [hf] at h2; simp at h2
  | some t =>
    rw [hf] at h2
    simp only [Bool.not_eq_true'] at h2
    exact ⟨t, rfl, h2⟩

theorem eligibleHit_spec {dr : Bool} {cat : List Char} {p : Page}
    (h : eligibleHit dr cat p = true) :
    p.ns = 0 ∧ ∃ t, p.fetchResult = some t ∧ check_category_in_text t cat = true ∧
      remove_category_from_text t cat ≠ t ∧ (dr = true ∨ p.saveOk = true) := by
  simp only [eligibleHit, Bool.and_eq_true, decide_eq_true_eq] at h
  obtain ⟨h1, h2⟩ := h
  refine ⟨h1, ?_⟩
  cases hf : p.fetchResult with
  | none => rw [hf] at h2; simp at h2
  | some t =>
    rw [hf] at h2
    simp only [Bool.and_eq_true, decide_eq_true_eq, Bool.or_eq_true] at h2
    exact ⟨t, rfl, h2.1.1, h2.1.2, h2.2⟩

/-- `not_found_count` only grows along the run until it is reset, so the
maximum value it attains is at least its entry value. -/
theorem processLoop_maxStreak_ge (mc : Nat) (dr : Bool) (cat : List Char) :
    ∀ (ps : List Page) (e n : Nat), n ≤ (processLoop mc dr cat ps e n).maxStreak := by
  intro ps
  induction ps with
  | nil => intro e n; simp [processLoop]
  | cons p rest ih =>
    intro e n
    by_cases hns : p.ns = 0
    · cases hf : p.fetchResult with
      | none =>
        rw [processLoop_cons_fetch_none hns hf]
        exact Nat.le_max_left _ _
      | some t =>
        cases hc : check_category_in_text t cat with
        | true =>
          by_cases hne : remove_category_from_text t cat ≠ t
          · cases dr with
            | true =>
              rw [processLoop_cons_hit_dry hns hf hc hne]
              exact Nat.le_max_left _ _
            | false =>
              cases hs : p.saveOk with
              | true =>
                rw [processLoop_cons_hit_live hns hf hc hne hs]
                exact Nat.le_max_left _ _
              | false =>
                rw [processLoop_cons_save_fail hns hf hc hne hs]
                exact Nat.le_max_left _ _
          · rw [processLoop_cons_warn hns hf hc (not_not.mp hne)]
            exact Nat.le_max_left _ _
        | false =>
          by_cases hth : n + 1 ≥ mc
          · rw [processLoop_cons_threshold hns hf hc hth]
            exact Nat.le_succ n
          · rw [processLoop_cons_miss hns hf hc (by omega)]
            exact Nat.le_max_left _ _
    · rw [processLoop_cons_ns hns]
      exact ih e n

/-- Running the loop over a block of eligible misses too short to reach the
threshold: every page of the block is fetched, nothing is saved, and the
counter advances by the block's length. -/
theorem processLoop_misses (mc : Nat) (dr : Bool) (cat : List Char) :
    ∀ (xs rest : List Page) (e n : Nat), xs.all (eligibleMiss cat) = true →
      n + xs.length < mc →
      processLoop mc dr cat (xs ++ rest) e n =
        ⟨(processLoop mc dr cat rest e (n + xs.length)).edits,
         (processLoop mc dr cat rest e (n + xs.length)).skipped,
         xs ++ (processLoop mc dr cat rest e (n + xs.length)).fetched,
         (processLoop mc dr cat rest e (n + xs.length)).saved,
         (processLoop mc dr cat rest e (n + xs.length)).warned,
         (processLoop mc dr cat rest e (n + xs.length)).maxStreak⟩ := by
  intro xs
  induction xs with
  | nil => intro rest e n _ _; simp
  | cons x xs ih =>
    intro rest e n hall hlen
    simp only [List.all_cons, Bool.and_eq_true] at hall
    obtain ⟨hx, hxs⟩ := hall
    obtain ⟨hns, t, hf, hc⟩ := eligibleMiss_spec hx
    simp only [List.length_cons] at hlen
    rw [List.cons_append, processLoop_cons_miss hns hf hc (by omega)]
    rw [ih rest e (n + 1) hxs (by omega)]
    have harith : n + 1 + xs.length = n + (xs.length + 1) := by omega
    rw [harith]
    have hge : n + (xs.length + 1) ≤
        (processLoop mc dr cat rest e (n + (xs.length + 1))).maxStreak :=
      processLoop_maxStreak_ge mc dr cat rest e _
    have hmax : max n (processLoop mc dr cat rest e (n + (xs.length + 1))).maxStreak =
        (processLoop mc dr cat rest e (n + (xs.length + 1))).maxStreak :=
      Nat.max_eq_right (by omega)
    simp [hmax]

/-- The cutover: from counter value `n`, a block of `mc - n` eligible misses
makes the loop return `(edits, True)` immediately; the pages after the block
are never reached, and the counter tops out at exactly `mc`. -/
theorem processLoop_cutover (mc : Nat) (dr : Bool) (cat : List Char) :
    ∀ (bad rest : List Page) (e n : Nat), n < mc → bad.length + n = mc →
      bad.all (eligibleMiss cat) = true →
      processLoop mc dr cat (bad ++ rest) e n = ⟨e, true, bad, [], [], mc⟩ := by
  intro bad
  induction bad with
  | nil => intro rest e n hlt hlen _; simp at hlen; omega
  | cons p bad ih =>
    intro rest e n hlt hlen hall
    simp only [List.all_cons, Bool.and_eq_true] at hall
    obtain ⟨hp, hbad⟩ := hall
    obtain ⟨hns, t, hf, hc⟩ := eligibleMiss_spec hp
    simp only [List.length_cons] at hlen
    by_cases hth : n + 1 ≥ mc
    · have hnil : bad = [] := by
        have : bad.length = 0 := by omega
        exact List.eq_nil_of_length_eq_zero this
      subst hnil
      rw [List.cons_append, processLoop_cons_threshold hns hf hc hth]
      have : n + 1 = mc := by omega
      rw [this]
    · rw [List.cons_append, processLoop_cons_miss hns hf hc (by omega)]
      rw [ih rest e (n + 1) (by omega) (by omega) hbad]
      have hmax : max n mc = mc := Nat.max_eq_right (by omega)
      simp [hmax]

/-- Soundness of the save trace: `page.save` is only ever invoked in live
mode, on a main-namespace page whose text was fetched, in which the category
was detected, and whose text the removal transform actually changed. -/
theorem processLoop_saved_spec (mc : Nat) (dr : Bool) (cat : List Char) :
    ∀ (ps : List Page) (e n : Nat) (p : Page), p ∈ (processLoop mc dr cat ps e n).saved →
      p.ns = 0 ∧ dr = false ∧ ∃ t, p.fetchResult = some t ∧
        check_category_in_text t cat = true ∧ remove_category_from_text t cat ≠ t := by
  intro ps
  induction ps with
  | nil => intro e n p h; simp [processLoop] at h
  | cons q rest ih =>
    intro e n p h
    by_cases hns : q.ns = 0
    · cases hf : q.fetchResult with
      | none =>
        rw [processLoop_cons_fetch_none hns hf] at h
        exact ih e n p h
      | some t =>
        cases hc : check_category_in_text t cat with
        | true =>
          by_cases hne : remove_category_from_text t cat ≠ t
          · cases dr with
            | true =>
              rw [processLoop_cons_hit_dry hns hf hc hne] at h
              exact ih (e + 1) 0 p h
            | false =>
              cases hs : q.saveOk with
              | true =>
                rw [processLoop_cons_hit_live hns hf hc hne hs] at h
                rcases List.mem_cons.mp h with hpq | hmem
                · subst hpq; exact ⟨hns, rfl, t, hf, hc, hne⟩
                · exact ih (e + 1) 0 p hmem
              | false =>
                rw [processLoop_cons_save_fail hns hf hc hne hs] at h
                rcases List.mem_cons.mp h with hpq | hmem
                · subst hpq; exact ⟨hns, rfl, t, hf, hc, hne⟩
                · exact ih e n p hmem
          · rw [processLoop_cons_warn hns hf hc (not_not.mp hne)] at h
            exact ih e n p h
        | false =>
          by_cases hth : n + 1 ≥ mc
          · rw [processLoop_cons_threshold hns hf hc hth] at h
            simp at h
          · rw [processLoop_cons_miss hns hf hc (by omega)] at h
            exact ih e (n + 1) p h
    · rw [processLoop_cons_ns hns] at h
      exact ih e n p h

/-- Soundness of the warning trace: the "Text unchanged after removal
attempt" warning is only emitted for a fetched main-namespace page in which
the category was detected but removal left the text identical. -/
theorem processLoop_warned_spec (mc : Nat) (dr : Bool) (cat : List Char) :
    ∀ (ps : List Page) (e n : Nat) (p : Page), p ∈ (processLoop mc dr cat ps e n).warned →
      p.ns = 0 ∧ ∃ t, p.fetchResult = some t ∧
        check_category_in_text t cat = true ∧ remove_category_from_text t cat = t := by
  intro ps
  induction ps with
  | nil => intro e n p h; simp [processLoop] at h
  | cons q rest ih =>
    intro e n p h
    by_cases hns : q.ns = 0
    · cases hf : q.fetchResult with
      | none =>
        rw [processLoop_cons_fetch_none hns hf] at h
        exact ih e n p h
      | some t =>
        cases hc : check_category_in_text t cat with
        | true =>
          by_cases hne : remove_category_from_text t cat ≠ t
          · cases dr with
            | true =>
              rw [processLoop_cons_hit_dry hns hf hc hne] at h
              exact ih (e + 1) 0 p h
            | false =>
              cases hs : q.saveOk with
              | true =>
                rw [processLoop_cons_hit_live hns hf hc hne hs] at h
                exact ih (e + 1) 0 p h
              | false =>
                rw [processLoop_cons_save_fail hns hf hc hne hs] at h
                exact ih e n p h
          · have heq := not_not.mp hne
            rw [processLoop_cons_warn hns hf hc heq] at h
            rcases List.mem_cons.mp h with hpq | hmem
            · subst hpq; exact ⟨hns, t, hf, hc, heq⟩
            · exact ih e n p hmem
        | false =>
          by_cases hth : n + 1 ≥ mc
          · rw [processLoop_cons_threshold hns hf hc hth] at h
            simp at h
          · rw [processLoop_cons_miss hns hf hc (by omega)] at h
            exact ih e (n + 1) p h
    · rw [processLoop_cons_ns hns] at h
      exact ih e n p h

/-- In dry-run mode the save capability is never invoked. -/
theorem processLoop_dry_saved_nil (mc : Nat) (cat : List Char) :
    ∀ (ps : List Page) (e n : Nat), (processLoop mc true cat ps e n).saved = [] := by
  intro ps
  induction ps with
  | nil => intro e n; simp [processLoop]
  | cons q rest ih =>
    intro e n
    by_cases hns : q.ns = 0
    · cases hf : q.fetchResult with
      | none => rw [processLoop_cons_fetch_none hns hf]; exact ih e n
      | some t =>
        cases hc : check_category_in_text t cat with
        | true =>
          by_cases hne : remove_category_from_text t cat ≠ t
          · rw [processLoop_cons_hit_dry hns hf hc hne]; exact ih (e + 1) 0
          · rw [processLoop_cons_warn hns hf hc (not_not.mp hne)]; exact ih e n
        | false =>
          by_cases hth : n + 1 ≥ mc
          · rw [processLoop_cons_threshold hns hf hc hth]
          · rw [processLoop_cons_miss hns hf hc (by omega)]; exact ih e (n + 1)
    · rw [processLoop_cons_ns hns]; exact ih e n

/-- Combined hit step: found and removable (and, in live mode, savable)
increments `edits_made`, resets `not_found_count` to 0, and invokes the save
capability exactly when not in dry-run mode. -/
theorem processLoop_cons_hit {mc : Nat} {dr : Bool} {cat : List Char} {p : Page}
    {rest : List Page} {e n : Nat} {t : List Char}
    (h0 : p.ns = 0) (hf : p.fetchResult = some t)
    (hc : check_category_in_text t cat = true)
    (hne : remove_category_from_text t cat ≠ t)
    (hs : dr = true ∨ p.saveOk = true) :
    processLoop mc dr cat (p :: rest) e n =
      ⟨(processLoop mc dr cat rest (e + 1) 0).edits,
       (processLoop mc dr cat rest (e + 1) 0).skipped,
       p :: (processLoop mc dr cat rest (e + 1) 0).fetched,
       (if dr then (processLoop mc dr cat rest (e + 1) 0).saved
        else p :: (processLoop mc dr cat rest (e + 1) 0).saved),
       (processLoop mc dr cat rest (e + 1) 0).warned,
       max n (processLoop mc dr cat rest (e + 1) 0).maxStreak⟩ := by
  cases dr with
  | true => rw [processLoop_cons_hit_dry h0 hf hc hne]; simp
  | false =>
    rcases hs with hdr | hs
    · exact absurd hdr (by simp)
    · rw [processLoop_cons_hit_live h0 hf hc hne hs]; simp

/-- A run consisting only of eligible misses, too short to reach the
threshold: all pages fetched, nothing saved, counter advanced by the run's
length and the loop falls off the end with `(edits, False)`. -/
theorem processLoop_misses_nil (mc : Nat) (dr : Bool) (cat : List Char)
    (xs : List Page) (e n : Nat) (hall : xs.all (eligibleMiss cat) = true)
    (hlen : n + xs.length < mc) :
    processLoop mc dr cat xs e n = ⟨e, false, xs, [], [], n + xs.length⟩ := by
  have h := processLoop_misses mc dr cat xs [] e n hall hlen
  rw [List.append_nil] at h
  rw [h]
  simp [processLoop]

/-! The claims. -/

/-- C1: from any loop state whose counter is below the threshold, a block of
`max_check - counter` consecutive eligible pages lacking the markup makes
`process_category` return immediately with `skipped = true` and the edits
made so far; only the block's pages are examined (none after the one that
reached the threshold), nothing is saved, and the counter never exceeds the
threshold (its maximum is exactly `max_check`).  In particular a category
whose members open with `max_check` such pages yields `(0, skipped = true)`. -/
theorem claim_C1 :
    (∀ (mc : Nat) (dr : Bool) (cat : List Char) (bad rest : List Page) (e n : Nat),
      n < mc → bad.length + n = mc → bad.all (eligibleMiss cat) = true →
      processLoop mc dr cat (bad ++ rest) e n = ⟨e, true, bad, [], [], mc⟩) ∧
    (∀ (mc : Nat) (dr : Bool) (cat : List Char) (bad rest : List Page),
      0 < mc → bad.length = mc → bad.all (eligibleMiss cat) = true →
      process_category mc dr cat (bad ++ rest) = ⟨0, true, bad, [], [], mc⟩) := by
  constructor
  · intro mc dr cat bad rest e n h1 h2 h3
    exact processLoop_cutover mc dr cat bad rest e n h1 h2 h3
  · intro mc dr cat bad rest h1 h2 h3
    exact processLoop_cutover mc dr cat bad rest 0 0 h1 (by omega) h3

theorem claim_C1_witness :
    process_category 10 false catA (List.replicate 10 pMiss ++ List.replicate 2 pMiss) =
      ⟨0, true, List.replicate 10 pMiss, [], [], 10⟩ :=
  claim_C1.2 10 false catA (List.replicate 10 pMiss) (List.replicate 2 pMiss)
    (by decide) (by decide) (by decide)

/-- C2: a page on which the markup is found and removal changes the text
(and whose save, in live mode, succeeds) increments `edits_made` and resets
the consecutive-not-found counter to 0; and for a member sequence of 5
misses, one such hit, and 5 more misses under threshold 10, the category is
processed to `(1, skipped = false)` (the streak tops out at 5). -/
theorem claim_C2 :
    (∀ (mc : Nat) (dr : Bool) (cat : List Char) (p : Page) (rest : List Page)
      (e n : Nat) (t : List Char), p.ns = 0 → p.fetchResult = some t →
      check_category_in_text t cat = true → remove_category_from_text t cat ≠ t →
      (dr = true ∨ p.saveOk = true) →
      processLoop mc dr cat (p :: rest) e n =
        ⟨(processLoop mc dr cat rest (e + 1) 0).edits,
         (processLoop mc dr cat rest (e + 1) 0).skipped,
         p :: (processLoop mc dr cat rest (e + 1) 0).fetched,
         (if dr then (processLoop mc dr cat rest (e + 1) 0).saved
          else p :: (processLoop mc dr cat rest (e + 1) 0).saved),
         (processLoop mc dr cat rest (e + 1) 0).warned,
         max n (processLoop mc dr cat rest (e + 1) 0).maxStreak⟩) ∧
    (∀ (dr : Bool) (cat : List Char) (a : List Page) (b : Page) (c : List Page),
      a.length = 5 → c.length = 5 → a.all (eligibleMiss cat) = true →
      c.all (eligibleMiss cat) = true → eligibleHit dr cat b = true →
      process_category 10 dr cat (a ++ b :: c) =
        ⟨1, false, a ++ b :: c, (if dr then [] else [b]), [], 5⟩) := by
  constructor
  · intro mc dr cat p rest e n t h0 hf hc hne hs
    exact processLoop_cons_hit h0 hf hc hne hs
  · intro dr cat a b c ha5 hc5 hamiss hcmiss hbhit
    obtain ⟨hns, t, hf, hchk, hne, hsave⟩ := eligibleHit_spec hbhit
    unfold process_category
    rw [processLoop_misses 10 dr cat a (b :: c) 0 0 hamiss (by omega)]
    have e5 : 0 + a.length = 5 := by omega
    rw [e5]
    rw [processLoop_cons_hit hns hf hchk hne hsave]
    rw [processLoop_misses_nil 10 dr cat c 1 0 hcmiss (by omega)]
    simp [hc5]

theorem claim_C2_witness :
    (processLoop 10 false catA (pHit :: [pMiss]) 0 3 =
      ⟨(processLoop 10 false catA [pMiss] 1 0).edits,
       (processLoop 10 false catA [pMiss] 1 0).skipped,
       pHit :: (processLoop 10 false catA [pMiss] 1 0).fetched,
       (if false then (processLoop 10 false catA [pMiss] 1 0).saved
        else pHit :: (processLoop 10 false catA [pMiss] 1 0).saved),
       (processLoop 10 false catA [pMiss] 1 0).warned,
       max 3 (processLoop 10 false catA [pMiss] 1 0).maxStreak⟩) ∧
    process_category 10 false catA
        (List.replicate 5 pMiss ++ pHit :: List.replicate 5 pMiss) =
      ⟨1, false, List.replicate 5 pMiss ++ pHit :: List.replicate 5 pMiss,
       (if false then [] else [pHit]), [], 5⟩ :=
  ⟨claim_C2.1 10 false catA pHit [pMiss] 0 3 ("[[Category:A]]".toList) rfl rfl
      (by decide) (by decide) (Or.inr rfl),
   claim_C2.2 false catA (List.replicate 5 pMiss) pHit (List.replicate 5 pMiss)
      (by decide) (by decide) (by decide) (by decide) (by decide)⟩

/-- C3 counterexample: with name `AB`, `check_category_in_text` accepts the
text `[[Category:ab]]` even though the exact name `AB` does not occur in the
text at all (the character `A` never appears in it), so the match is not
restricted to targets equal to the category name with only the namespace
keyword case-insensitive. -/
theorem claim_C3_counterexample :
    check_category_in_text ("[[Category:ab]]".toList) ("AB".toList) = true ∧
    'A' ∈ ("AB".toList) ∧ 'A' ∉ ("[[Category:ab]]".toList) := by decide

/-- C3 (amended): metacharacters in the category name are treated as literal
text, but `re.IGNORECASE` applies to the whole pattern, so the target name is
matched up to letter case as well as the namespace keyword: whenever
`check_category_in_text` is true, the ASCII-case-folded name occurs in the
ASCII-case-folded text (after trimming trailing whitespace before the closing
delimiter or sort-key separator). -/
theorem claim_C3 :
    (∀ text name : List Char, check_category_in_text text name = true →
      ∃ s t, text.map lowerAscii = s ++ name.map lowerAscii ++ t) ∧
    check_category_in_text ("x\n[[Category:Test (Category)]]".toList)
      ("Test (Category)".toList) = true ∧
    check_category_in_text ("x\n[[Category:Test Category]]".toList)
      ("Test (Category)".toList) = false ∧
    check_category_in_text ("x[[Category:Test Cat ]]".toList)
      ("Test Cat".toList) = true := by
  refine ⟨?_, by decide, by decide, by decide⟩
  intro text name h
  simp only [check_category_in_text, Bool.or_eq_true] at h
  rcases h with ((h | h) | h) | h
  · exact containsMatch_sound h
  · exact containsMatch_sound h
  · exact containsMatch_sound h
  · exact containsMatch_sound h

theorem claim_C3_witness :
    ∃ s t, (("[[Category:ab]]".toList).map lowerAscii) =
      s ++ (("AB".toList).map lowerAscii) ++ t :=
  claim_C3.1 ("[[Category:ab]]".toList) ("AB".toList) (by decide)

/-- C4: a page is never saved with unchanged content: the save capability is
only invoked on pages whose fetched text both contains the category and is
actually changed by the removal transform; and the unchanged-after-removal
warning is only emitted on pages whose fetched text contains the category
while removal leaves it identical (the branch that skips the save and leaves
both counters alone). -/
theorem claim_C4 :
    (∀ (mc : Nat) (dr : Bool) (cat : List Char) (ps : List Page) (e n : Nat) (p : Page),
      p ∈ (processLoop mc dr cat ps e n).saved →
      p.ns = 0 ∧ ∃ t, p.fetchResult = some t ∧ check_category_in_text t cat = true ∧
        remove_category_from_text t cat ≠ t) ∧
    (∀ (mc : Nat) (dr : Bool) (cat : List Char) (ps : List Page) (e n : Nat) (p : Page),
      p ∈ (processLoop mc dr cat ps e n).warned →
      p.ns = 0 ∧ ∃ t, p.fetchResult = some t ∧ check_category_in_text t cat = true ∧
        remove_category_from_text t cat = t) := by
  constructor
  · intro mc dr cat ps e n p h
    obtain ⟨h1, _, t, hf, hc, hne⟩ := processLoop_saved_spec mc dr cat ps e n p h
    exact ⟨h1, t, hf, hc, hne⟩
  · intro mc dr cat ps e n p h
    exact processLoop_warned_spec mc dr cat ps e n p h

theorem claim_C4_witness :
    pHit.ns = 0 ∧ ∃ t, pHit.fetchResult = some t ∧
      check_category_in_text t catA = true ∧ remove_category_from_text t catA ≠ t :=
  claim_C4.1 10 false catA [pHit] 0 0 pHit (by decide)

/-- C5: a member page outside the main namespace is skipped without its text
being fetched and without any effect on the loop state: processing it is the
same as processing the remaining members (same result and same traces, so in
particular the page appears in no trace), whatever its content. -/
theorem claim_C5 :
    ∀ (mc : Nat) (dr : Bool) (cat : List Char) (p : Page) (rest : List Page) (e n : Nat),
      p.ns ≠ 0 →
      processLoop mc dr cat (p :: rest) e n = processLoop mc dr cat rest e n :=
  fun _ _ _ _ _ _ _ h => processLoop_cons_ns h

theorem claim_C5_witness :
    processLoop 10 false catA (pTalk :: [pHit]) 0 0 = processLoop 10 false catA [pHit] 0 0 :=
  claim_C5 10 false catA pTalk [pHit] 0 0 (by decide)

/-- C6: an exception raised while fetching a page's text, or while saving a
page, is caught: the page is skipped (after being recorded as attempted),
`edits_made` and the consecutive-not-found counter are left unchanged, and
processing continues with the remaining members of the category. -/
theorem claim_C6 :
    (∀ (mc : Nat) (dr : Bool) (cat : List Char) (p : Page) (rest : List Page) (e n : Nat),
      p.ns = 0 → p.fetchResult = none →
      processLoop mc dr cat (p :: rest) e n =
        ⟨(processLoop mc dr cat rest e n).edits, (processLoop mc dr cat rest e n).skipped,
         p :: (processLoop mc dr cat rest e n).fetched, (processLoop mc dr cat rest e n).saved,
         (processLoop mc dr cat rest e n).warned, (processLoop mc dr cat rest e n).maxStreak⟩) ∧
    (∀ (mc : Nat) (cat : List Char) (p : Page) (rest : List Page) (e n : Nat) (t : List Char),
      p.ns = 0 → p.fetchResult = some t → check_category_in_text t cat = true →
      remove_category_from_text t cat ≠ t → p.saveOk = false →
      processLoop mc false cat (p :: rest) e n =
        ⟨(processLoop mc false cat rest e n).edits, (processLoop mc false cat rest e n).skipped,
         p :: (processLoop mc false cat rest e n).fetched,
         p :: (processLoop mc false cat rest e n).saved,
         (processLoop mc false cat rest e n).warned,
         (processLoop mc false cat rest e n).maxStreak⟩) := by
  constructor
  · intro mc dr cat p rest e n h0 hf
    rw [processLoop_cons_fetch_none h0 hf,
      Nat.max_eq_right (processLoop_maxStreak_ge mc dr cat rest e n)]
  · intro mc cat p rest e n t h0 hf hc hne hs
    rw [processLoop_cons_save_fail h0 hf hc hne hs,
      Nat.max_eq_right (processLoop_maxStreak_ge mc false cat rest e n)]

theorem claim_C6_witness :
    (processLoop 10 false catA (pFetchFail :: [pMiss]) 0 2 =
      ⟨(processLoop 10 false catA [pMiss] 0 2).edits,
       (processLoop 10 false catA [pMiss] 0 2).skipped,
       pFetchFail :: (processLoop 10 false catA [pMiss] 0 2).fetched,
       (processLoop 10 false catA [pMiss] 0 2).saved,
       (processLoop 10 false catA [pMiss] 0 2).warned,
       (processLoop 10 false catA [pMiss] 0 2).maxStreak⟩) ∧
    (processLoop 10 false catA (pSaveFail :: [pMiss]) 0 2 =
      ⟨(processLoop 10 false catA [pMiss] 0 2).edits,
       (processLoop 10 false catA [pMiss] 0 2).skipped,
       pSaveFail :: (processLoop 10 false catA [pMiss] 0 2).fetched,
       pSaveFail :: (processLoop 10 false catA [pMiss] 0 2).saved,
       (processLoop 10 false catA [pMiss] 0 2).warned,
       (processLoop 10 false catA [pMiss] 0 2).maxStreak⟩) :=
  ⟨claim_C6.1 10 false catA pFetchFail [pMiss] 0 2 (by decide) (by decide),
   claim_C6.2 10 catA pSaveFail [pMiss] 0 2 ("[[Category:A]]".toList)
     (by decide) (by decide) (by decide) (by decide) (by decide)⟩

/-- C7 counterexample: on four nested occurrences of the construct the four
sequential substitution passes peel off only three layers, so one occurrence
remains and a second application of the removal removes it: applying the
removal twice differs from applying it once. -/
theorem claim_C7_counterexample :
    remove_category_from_text (remove_category_from_text nested4 catA) catA ≠
      remove_category_from_text nested4 catA := by decide

/-- C7 (amended): on text with no matching occurrence the removal returns
the input unchanged (identity), and applying the removal twice equals
applying it once whenever the first application leaves no matching
occurrence (in particular on any input whose occurrences do not nest);
unrestricted idempotence fails on nested occurrences. -/
theorem claim_C7 :
    (∀ text name : List Char, check_category_in_text text name = false →
      remove_category_from_text text name = text) ∧
    (∀ text name : List Char,
      check_category_in_text (remove_category_from_text text name) name = false →
      remove_category_from_text (remove_category_from_text text name) name =
        remove_category_from_text text name) := by
  exact ⟨fun _ _ h => remove_id_of_check_false h,
         fun _ _ h => remove_id_of_check_false h⟩

theorem claim_C7_witness :
    remove_category_from_text ("plain text".toList) catA = "plain text".toList ∧
    remove_category_from_text
        (remove_category_from_text ("x[[Category:A]]y".toList) catA) catA =
      remove_category_from_text ("x[[Category:A]]y".toList) catA :=
  ⟨claim_C7.1 ("plain text".toList) catA (by decide),
   claim_C7.2 ("x[[Category:A]]y".toList) catA (by decide)⟩

/-- C8: in dry-run mode a detected and removable occurrence increments the
edit counter and resets the streak exactly as the live-mode transition does,
but the save capability is never invoked (on any input, the dry-run save
trace is empty). -/
theorem claim_C8 :
    (∀ (mc : Nat) (cat : List Char) (p : Page) (rest : List Page) (e n : Nat)
      (t : List Char), p.ns = 0 → p.fetchResult = some t →
      check_category_in_text t cat = true → remove_category_from_text t cat ≠ t →
      processLoop mc true cat (p :: rest) e n =
        ⟨(processLoop mc true cat rest (e + 1) 0).edits,
         (processLoop mc true cat rest (e + 1) 0).skipped,
         p :: (processLoop mc true cat rest (e + 1) 0).fetched,
         (processLoop mc true cat rest (e + 1) 0).saved,
         (processLoop mc true cat rest (e + 1) 0).warned,
         max n (processLoop mc true cat rest (e + 1) 0).maxStreak⟩) ∧
    (∀ (mc : Nat) (cat : List Char) (ps : List Page) (e n : Nat),
      (processLoop mc true cat ps e n).saved = []) := by
  exact ⟨fun mc cat p rest e n t h0 hf hc hne => processLoop_cons_hit_dry h0 hf hc hne,
         fun mc cat ps e n => processLoop_dry_saved_nil mc cat ps e n⟩

theorem claim_C8_witness :
    (processLoop 10 true catA (pHit :: [pMiss]) 0 4 =
      ⟨(processLoop 10 true catA [pMiss] 1 0).edits,
       (processLoop 10 true catA [pMiss] 1 0).skipped,
       pHit :: (processLoop 10 true catA [pMiss] 1 0).fetched,
       (processLoop 10 true catA [pMiss] 1 0).saved,
       (processLoop 10 true catA [pMiss] 1 0).warned,
       max 4 (processLoop 10 true catA [pMiss] 1 0).maxStreak⟩) ∧
    (processLoop 10 true catA [pHit, pMiss] 0 0).saved = [] :=
  ⟨claim_C8.1 10 catA pHit [pMiss] 0 4 ("[[Category:A]]".toList)
      (by decide) (by decide) (by decide) (by decide),
   claim_C8.2 10 catA [pHit, pMiss] 0 0⟩

/-- C9 counterexample: the text `[[Category:A|[[Category:B]]` contains the
construct for category `B` (its `check` accepts it), yet removing category
`A` deletes the whole overlapping region — the sort key of `A`'s construct
swallows the opening of `B`'s — leaving the empty text, so `B`'s occurrence
is not left intact. -/
theorem claim_C9_counterexample :
    check_category_in_text ("[[Category:A|[[Category:B]]".toList) ("B".toList) = true ∧
    remove_category_from_text ("[[Category:A|[[Category:B]]".toList) ("A".toList) = [] := by
  decide

/-- C9 (amended): each of the four removal passes deletes only whole
segments that match the bracketed construct for the given category name
(including the sort-key suffix and one trailing newline), so text outside
the deleted segments — in particular any other category's markup that does
not overlap a deleted segment — is preserved; an overlapping occurrence of
another category can be destroyed.  The disjoint multi-category example and
the sort-key-plus-newline deletion are verified concretely. -/
theorem claim_C9 :
    (∀ text name : List Char, ∃ t1 t2 t3,
      Dels ("Category:".toList) name text t1 ∧
      Dels ("category:".toList) name t1 t2 ∧
      Dels ("تصنيف:".toList) name t2 t3 ∧
      Dels ("CATEGORY:".toList) name t3 (remove_category_from_text text name)) ∧
    remove_category_from_text ("Text\n[[Category:A]]\n[[Category:B]]".toList) ("A".toList) =
      "Text\n[[Category:B]]".toList ∧
    remove_category_from_text ("x\n[[Category:N|Key]]\ny".toList) ("N".toList) =
      "x\ny".toList := by
  refine ⟨?_, by decide, by decide⟩
  intro text name
  exact ⟨_, _, _, dels_subPass _ _ _, dels_subPass _ _ _, dels_subPass _ _ _,
    dels_subPass _ _ _⟩

/-- C10: detection failure guarantees removal is the identity: whenever
`check_category_in_text` returns false, every substitution pass of
`remove_category_from_text` finds no match and the text is returned
unchanged. -/
theorem claim_C10 :
    ∀ text name : List Char, check_category_in_text text name = false →
      remove_category_from_text text name = text :=
  fun _ _ h => remove_id_of_check_false h

theorem claim_C10_witness :
    remove_category_from_text ("Text\n[[Category:Other]]".toList) ("Test".toList) =
      "Text\n[[Category:Other]]".toList :=
  claim_C10 ("Text\n[[Category:Other]]".toList) ("Test".toList) (by decide)
